import Mathlib

/-!
# The header cache of `perso` (`cache.go`)

A shallow embedding of the cache actor: the two-level store
`map[string]map[string]mailFiles`, the operations `add`, `remove`, `match`,
`respond` and `list`, and the dispatch loop `run`, followed by theorems about
them.

Conventions of the embedding.

* A Go map is a duplicate-free association list (`GoMap`); the order of the list
  stands for the order in which a `range` loop happens to visit the map.
* A Go slice of message ids is a `List`.  The only aliasing in `cache.go` is in
  `respond`, where the slice returned by `match` shares its backing array with
  the bucket it was read from; the embedding writes the sorted slice back.
* A runtime panic is the result `none` of an `Option`-valued operation.
* A reply channel that is closed after at most one send is the `Option` of the
  value sent.
-/

namespace Perso

/-! ## Go maps with string keys -/

/-- The value bound to `k` in an association list, the first one from the left. -/
def lookupList {V : Type} (k : String) : List (String × V) → Option V
  | [] => none
  | (k', v) :: t => if k = k' then some v else lookupList k t

/-- Bind `k` to `v` in an association list: overwrite the binding in place when
there is one, otherwise add a new binding. -/
def assignList {V : Type} (k : String) (v : V) : List (String × V) → List (String × V)
  | [] => [(k, v)]
  | (k', v') :: t => if k = k' then (k', v) :: t else (k', v') :: assignList k v t

/-- A Go `map[string]V`: finitely many bindings, no key bound twice. -/
structure GoMap (V : Type) where
  entries : List (String × V)
  nodup : (entries.map Prod.fst).Nodup
deriving DecidableEq

namespace GoMap

variable {V W : Type}

/-- The map `make(map[string]V)`. -/
def empty : GoMap V := ⟨[], List.nodup_nil⟩

/-- The keys, in the order a `range` loop visits them. -/
def keys (m : GoMap V) : List String := m.entries.map Prod.fst

/-- The read `v, found := m[k]`. -/
def get? (m : GoMap V) (k : String) : Option V := lookupList k m.entries

/-- The assignment `m[k] = v`. -/
def assign (m : GoMap V) (k : String) (v : V) : GoMap V :=
  ⟨assignList k v m.entries, by
    have key : ∀ l : List (String × V), (l.map Prod.fst).Nodup →
        ((assignList k v l).map Prod.fst).Nodup ∧
          ∀ x, x ∈ (assignList k v l).map Prod.fst → x = k ∨ x ∈ l.map Prod.fst := by
      intro l
      induction l with
      | nil => intro _; simp [assignList]
      | cons p t ih =>
        obtain ⟨k', v'⟩ := p
        intro hnd
        rw [List.map_cons, List.nodup_cons] at hnd
        by_cases hk : k = k'
        · simp only [assignList, if_pos hk, List.map_cons, List.nodup_cons]
          exact ⟨⟨hnd.1, hnd.2⟩, fun x hx => Or.inr hx⟩
        · simp only [assignList, if_neg hk, List.map_cons, List.nodup_cons]
          obtain ⟨ih1, ih2⟩ := ih hnd.2
          refine ⟨⟨fun hmem => ?_, ih1⟩, fun x hx => ?_⟩
          · rcases ih2 k' hmem with h | h
            · exact hk h.symm
            · exact hnd.1 h
          · rcases List.mem_cons.1 hx with h | h
            · exact Or.inr (List.mem_cons.2 (Or.inl h))
            · rcases ih2 x h with h' | h'
              · exact Or.inl h'
              · exact Or.inr (List.mem_cons.2 (Or.inr h'))
    exact (key m.entries m.nodup).1⟩

/-- A `range` loop over the map that overwrites every value `m[k]` by `f m[k]`. -/
def mapValues (f : V → W) (m : GoMap V) : GoMap W :=
  ⟨m.entries.map (fun p => (p.1, f p.2)), by
    have h : (m.entries.map (fun p => (p.1, f p.2))).map Prod.fst = m.entries.map Prod.fst := by
      rw [List.map_map]; rfl
    rw [h]; exact m.nodup⟩

end GoMap

/-! ## Strings -/

/-- The library function `strings.Contains(s, substr)`. -/
def strContains (s substr : String) : Bool := decide (substr.data <:+: s.data)

/-! ## Message ids and file sets

The declarations of `mailFile` and `mailFiles` are not part of `cache.go`.  The
message id is a type parameter `α` carrying the total order of the spec, and
`mailFiles` is `List α`. -/

section Model

variable {α : Type} [LinearOrder α]

/-- Modelled from the spec: `newMailFiles`, which is not in `cache.go`; it
creates the empty bucket ("creating the bucket if absent"). -/
def newMailFiles : List α := []

/-- Modelled from the spec: `sort.Sort(files)` with the `Less` of `mailFiles`,
which is not in `cache.go`; "sortable ascending ... by the MessageId order". -/
def sortAsc (files : List α) : List α := files.insertionSort (fun a b => a ≤ b)

/-- Modelled from the spec: `sort.Sort(sort.Reverse(files))`, the same sort with
the comparison reversed; "sort fileSet descending by recency". -/
def sortDesc (files : List α) : List α := files.insertionSort (fun a b => b ≤ a)

/-- The inner scan of `diff`: `a` is the current element of `A`, `rest` is the
scan of the remainder of `A`, and the argument is what is left of `B`. -/
def diffScan (a : α) (rest : List α → List α) : List α → List α
  | [] => a :: rest []
  | b :: bs =>
    if a < b then a :: rest (b :: bs)
    else if b < a then diffScan a rest bs
    else rest bs

/-- Modelled from the spec: `mailFiles.diff`, which is not in `cache.go`.
"Difference(A, B): ... a linear merge-style scan (advance whichever pointer
points to the smaller/equal element; emit from A only when the current
A-element is strictly less than the current B-element, or B is exhausted)".
A pointer advances exactly when its element is smaller than or equal to the
other one, so both advance on equal elements. -/
def diff : List α → List α → List α
  | [] => fun _ => []
  | a :: as => diffScan a (diff as)

/-! ## The data model of `cache.go` -/

/-- Modelled from the spec: `keyType`, whose declaration is not in `cache.go`:
the match modes EXACT, ADDRESS and PARTIAL.  `cache.go` names the last two. -/
inductive keyType where
  | keyTypeExact
  | keyTypeAddr
  | keyTypePart
deriving DecidableEq, Repr

/-- The `cacheString` of the source: header value ↦ bucket. -/
abbrev cacheString (α : Type) := GoMap (List α)

/-- The struct `caches`, reduced to the store `data`; the channels are the
messages of `Msg` below. -/
structure caches (α : Type) where
  data : GoMap (cacheString α)
deriving DecidableEq

/-- The struct `cacheRequest`; the reply channel `data` is the result of
`respond`. -/
structure cacheRequest where
  header : String
  value : String
  index : Int
  limit : Int
  oldest : Bool
  match_ : keyType
deriving DecidableEq

/-- The struct `cacheListRequest`; the reply channel `data` is the result of
`list`. -/
structure cacheListRequest where
  header : String
deriving DecidableEq

/-- The struct `cacheEntry`. -/
structure cacheEntry (α : Type) where
  name : String
  key : String
  value : α
deriving DecidableEq

/-- The bucket `c.data[header][value]`, if both keys are bound. -/
def caches.bucket (c : caches α) (header value : String) : Option (List α) :=
  (c.data.get? header).bind (fun cache => cache.get? value)

/-- The method `initCachesString`. -/
def caches.initCachesString (c : caches α) (name : String) : caches α :=
  ⟨c.data.assign name GoMap.empty⟩

/-- The function `newCaches`; `keys` are the keys of `indexer.keys` in the
order the `range` loop visits them. -/
def newCaches (keys : List String) : caches α :=
  keys.foldl (fun c i => c.initCachesString i) ⟨GoMap.empty⟩

/-- The method `add`.  When `name` is not a key of `c.data`, `c.data[name]` is
the nil map: the read on line 82 misses and the assignment on line 83 panics. -/
def caches.add (c : caches α) (entry : cacheEntry α) : Option (caches α) :=
  let name := entry.name
  let key := entry.key
  let value := entry.value
  match c.data.get? name with
  | none => none
  | some cache =>
    let cache1 := if (cache.get? key).isNone then cache.assign key newMailFiles else cache
    let cache2 := cache1.assign key ((cache1.get? key).getD [] ++ [value])
    some ⟨c.data.assign name cache2⟩

/-- The method `remove`: every bucket is sorted and replaced by its `diff`
with `files`. -/
def caches.remove (c : caches α) (files : List α) : caches α :=
  ⟨c.data.mapValues (fun cache => cache.mapValues (fun b => diff (sortAsc b) files))⟩

/-- The method `match`.  `toLower` is the library function `strings.ToLower`. -/
def caches.match_ (toLower : String → String) (c : caches α) (header value : String)
    (m : keyType) : List α :=
  match c.data.get? header with
  | none => []
  | some cache =>
    let value := if m = keyType.keyTypeAddr then toLower value else value
    if m ≠ keyType.keyTypePart then (cache.get? value).getD []
    else
      cache.entries.foldl
        (fun results p => if strContains p.1 value then results ++ p.2 else results)
        newMailFiles

/-- The copy loop of `respond`:
`for i, j := 0, r.index; i < r.limit; i, j = i+1, j+1 { result[i] = files[j] }`,
with `n` the number of iterations left.  `files[j]` panics when `j` is out of
range. -/
def copyLoop (files : List α) : Int → Nat → Option (List α)
  | _, 0 => some []
  | j, n + 1 =>
    if j < 0 then none
    else
      match files[j.toNat]? with
      | none => none
      | some x => (copyLoop files (j + 1) n).map (fun result => x :: result)

/-- The effect of sorting the slice returned by `match` in place: in the modes
other than `keyTypePart` that slice is the bucket itself, which is thereby
overwritten with `sorted`; in mode `keyTypePart` it is a fresh slice. -/
def caches.sortInPlace (toLower : String → String) (c : caches α) (header value : String)
    (m : keyType) (sorted : List α) : caches α :=
  if m = keyType.keyTypePart then c
  else
    match c.data.get? header with
    | none => c
    | some cache =>
      let value := if m = keyType.keyTypeAddr then toLower value else value
      ⟨c.data.assign header (cache.assign value sorted)⟩

/-- The method `respond`.  The result is `none` on a panic, and otherwise the
store after the call together with what was sent on `r.data` before it was
closed. -/
def caches.respond (toLower : String → String) (c : caches α) (r : cacheRequest) :
    Option (caches α × Option (List α)) :=
  let files := c.match_ toLower r.header r.value r.match_
  let lfiles : Int := files.length
  if lfiles = 0 then some (c, none)
  else
    let limit := if r.limit = 0 then 1 else r.limit
    let limit := if limit > lfiles then lfiles else limit
    if r.index ≥ lfiles then some (c, none)
    else
      let sorted := if !r.oldest then sortDesc files else sortAsc files
      let c' := c.sortInPlace toLower r.header r.value r.match_ sorted
      if limit < 0 then none
      else
        match copyLoop sorted r.index limit.toNat with
        | none => none
        | some result => some (c', some result)

/-- The method `list`: what was sent on `r.data` before it was closed. -/
def caches.list (c : caches α) (r : cacheListRequest) : Option (List String) :=
  match c.data.get? r.header with
  | none => none
  | some values => some values.keys

/-- The four message classes received by `run`. -/
inductive Msg (α : Type) where
  | list (r : cacheListRequest)
  | request (r : cacheRequest)
  | add (entry : cacheEntry α)
  | remove (files : List α)

/-- One iteration of the loop of `run`: the store after the message has been
served, `none` when serving it panics. -/
def caches.step (toLower : String → String) (c : caches α) : Msg α → Option (caches α)
  | Msg.list _ => some c
  | Msg.request r => (c.respond toLower r).map Prod.fst
  | Msg.add entry => c.add entry
  | Msg.remove files => some (c.remove files)

/-- The loop of `run` over a finite sequence of received messages. -/
def caches.run (toLower : String → String) (c : caches α) : List (Msg α) → Option (caches α)
  | [] => some c
  | msg :: rest =>
    match c.step toLower msg with
    | none => none
    | some c' => caches.run toLower c' rest

/-- The ASCII part of `strings.ToLower`, used to instantiate `toLower` on
concrete inputs. -/
def asciiToLower (s : String) : String := ⟨s.data.map Char.toLower⟩

end Model

/-! ## Concrete stores used in the examples -/

/-- The store with the single header `From` and the bucket
`alice@x.com ↦ [5, 4, 3, 2, 1]`. -/
def store5 : caches Nat :=
  ⟨⟨[("From", ⟨[("alice@x.com", [5, 4, 3, 2, 1])], by decide⟩)], by decide⟩⟩

/-- The store with the single header `From` and the buckets
`alice@x.com ↦ [1]` and `alicia@y.com ↦ [2]`. -/
def store2 : caches Nat :=
  ⟨⟨[("From", ⟨[("alice@x.com", [1]), ("alicia@y.com", [2])], by decide⟩)], by decide⟩⟩

/-- The store with the single header `From` and the bucket `bob@x.com ↦ [7, 7]`,
as two `add`s of the same id leave it. -/
def storeDup : caches Nat :=
  ⟨⟨[("From", ⟨[("bob@x.com", [7, 7])], by decide⟩)], by decide⟩⟩

/-- The store with the single header `From` and no bucket. -/
def store0 : caches Nat := ⟨⟨[("From", ⟨[], by decide⟩)], by decide⟩⟩

/-- The value index `alice@x.com ↦ [1]`. -/
def cache1 : cacheString Nat := ⟨[("alice@x.com", [1])], by decide⟩

/-- The store with the single header `From` and the bucket `alice@x.com ↦ [1]`. -/
def store1 : caches Nat := ⟨⟨[("From", cache1)], by decide⟩⟩

/-- The store built for the headers `From` and `To` after the id `1` has been
added under `From`, queried, and removed again. -/
def storeAfter : caches Nat :=
  ⟨⟨[("From", ⟨[("alice@x.com", [])], by decide⟩), ("To", ⟨[], by decide⟩)], by decide⟩⟩

/-- The store with the single header `From` and the emptied bucket
`alice@x.com ↦ []`, as `remove [1]` leaves `store1`. -/
def storeEmptied : caches Nat :=
  ⟨⟨[("From", ⟨[("alice@x.com", [])], by decide⟩)], by decide⟩⟩

/-! ## Lemmas on Go maps -/

section MapLemmas

variable {V W : Type}

theorem lookupList_assignList_self (k : String) (v : V) (l : List (String × V)) :
    lookupList k (assignList k v l) = some v := by
  induction l with
  | nil => simp [assignList, lookupList]
  | cons p t ih =>
    obtain ⟨k', v'⟩ := p
    by_cases hk : k = k'
    · simp [assignList, lookupList, hk]
    · simp [assignList, lookupList, hk, ih]

theorem lookupList_assignList_ne {k k' : String} (h : k' ≠ k) (v : V) (l : List (String × V)) :
    lookupList k' (assignList k v l) = lookupList k' l := by
  induction l with
  | nil => simp [assignList, lookupList, h]
  | cons p t ih =>
    obtain ⟨k₀, v₀⟩ := p
    by_cases hk : k = k₀
    · subst hk
      simp [assignList, lookupList, h]
    · by_cases hk' : k' = k₀
      · simp [assignList, lookupList, hk, hk']
      · simp [assignList, lookupList, hk, hk', ih]

theorem mem_keys_assignList (k : String) (v : V) (l : List (String × V)) (x : String) :
    x ∈ (assignList k v l).map Prod.fst ↔ x = k ∨ x ∈ l.map Prod.fst := by
  induction l with
  | nil => simp [assignList]
  | cons p t ih =>
    obtain ⟨k₀, v₀⟩ := p
    by_cases hk : k = k₀
    · subst hk
      simp [assignList]
    · simp only [assignList, if_neg hk, List.map_cons, List.mem_cons, ih]
      tauto

theorem lookupList_eq_none_iff (k : String) (l : List (String × V)) :
    lookupList k l = none ↔ k ∉ l.map Prod.fst := by
  induction l with
  | nil => simp [lookupList]
  | cons p t ih =>
    obtain ⟨k₀, v₀⟩ := p
    by_cases hk : k = k₀
    · simp [lookupList, hk]
    · simp [lookupList, hk, ih]

theorem lookupList_eq_some_iff (k : String) (v : V) (l : List (String × V))
    (hnd : (l.map Prod.fst).Nodup) : lookupList k l = some v ↔ (k, v) ∈ l := by
  induction l with
  | nil => simp [lookupList]
  | cons p t ih =>
    obtain ⟨k₀, v₀⟩ := p
    rw [List.map_cons, List.nodup_cons] at hnd
    by_cases hk : k = k₀
    · subst hk
      have hnot : (k, v) ∉ t := fun hm => hnd.1 (List.mem_map.2 ⟨(k, v), hm, rfl⟩)
      simp only [lookupList, if_true, Option.some.injEq, List.mem_cons, Prod.mk.injEq,
        true_and, hnot, or_false]
      exact eq_comm
    · have hne : (k, v) ≠ (k₀, v₀) := fun he => hk (congrArg Prod.fst he)
      simp only [lookupList, if_neg hk, ih hnd.2, List.mem_cons, hne, false_or]

theorem lookupList_map (f : V → W) (k : String) (l : List (String × V)) :
    lookupList k (l.map (fun p => (p.1, f p.2))) = (lookupList k l).map f := by
  induction l with
  | nil => simp [lookupList]
  | cons p t ih =>
    obtain ⟨k₀, v₀⟩ := p
    by_cases hk : k = k₀
    · simp [lookupList, hk]
    · simp [lookupList, hk, ih]

theorem GoMap.get?_assign_self (m : GoMap V) (k : String) (v : V) :
    (m.assign k v).get? k = some v :=
  lookupList_assignList_self k v m.entries

theorem GoMap.get?_assign_ne (m : GoMap V) {k k' : String} (h : k' ≠ k) (v : V) :
    (m.assign k v).get? k' = m.get? k' :=
  lookupList_assignList_ne h v m.entries

theorem GoMap.mem_keys_assign (m : GoMap V) (k : String) (v : V) (x : String) :
    x ∈ (m.assign k v).keys ↔ x = k ∨ x ∈ m.keys :=
  mem_keys_assignList k v m.entries x

theorem GoMap.get?_eq_none_iff (m : GoMap V) (k : String) :
    m.get? k = none ↔ k ∉ m.keys :=
  lookupList_eq_none_iff k m.entries

theorem GoMap.get?_eq_some_iff (m : GoMap V) (k : String) (v : V) :
    m.get? k = some v ↔ (k, v) ∈ m.entries :=
  lookupList_eq_some_iff k v m.entries m.nodup

theorem GoMap.mem_keys_of_get? {m : GoMap V} {k : String} {v : V} (h : m.get? k = some v) :
    k ∈ m.keys := by
  by_contra hk
  rw [← GoMap.get?_eq_none_iff] at hk
  rw [hk] at h
  exact Option.noConfusion h

theorem GoMap.get?_mapValues (f : V → W) (m : GoMap V) (k : String) :
    (m.mapValues f).get? k = (m.get? k).map f :=
  lookupList_map f k m.entries

theorem GoMap.keys_mapValues (f : V → W) (m : GoMap V) : (m.mapValues f).keys = m.keys := by
  unfold GoMap.keys GoMap.mapValues
  rw [List.map_map]
  rfl

theorem GoMap.get?_empty (k : String) : (GoMap.empty : GoMap V).get? k = none := rfl

end MapLemmas

/-! ## Lemmas on sorting and on the copy loop -/

section SortLemmas

variable {α : Type} [LinearOrder α]

theorem sortAsc_perm (files : List α) : (sortAsc files).Perm files :=
  List.perm_insertionSort _ files

theorem sortDesc_perm (files : List α) : (sortDesc files).Perm files :=
  List.perm_insertionSort _ files

theorem sortAsc_sorted (files : List α) : (sortAsc files).Sorted (fun a b => a ≤ b) :=
  List.sorted_insertionSort (fun a b : α => a ≤ b) files

theorem sortDesc_sorted (files : List α) : (sortDesc files).Sorted (fun a b => b ≤ a) :=
  List.sorted_insertionSort (fun a b : α => a ≥ b) files

theorem sortAsc_length (files : List α) : (sortAsc files).length = files.length :=
  (sortAsc_perm files).length_eq

theorem sortDesc_length (files : List α) : (sortDesc files).length = files.length :=
  (sortDesc_perm files).length_eq

/-- Within the bounds of `files` the copy loop returns the slice `files[j : j+n]`. -/
theorem copyLoop_of_le {β : Type} (files : List β) (n j : ℕ) (h : j + n ≤ files.length) :
    copyLoop files (j : Int) n = some ((files.drop j).take n) := by
  induction n generalizing j with
  | zero => simp [copyLoop]
  | succ n ih =>
    have hj : j < files.length := by omega
    have hstep : ((j : Int) + 1) = ((j + 1 : ℕ) : Int) := by push_cast; rfl
    have hneg : ¬ ((j : Int) < 0) := by omega
    rw [copyLoop, if_neg hneg, Int.toNat_ofNat, List.getElem?_eq_getElem hj]
    simp only []
    rw [hstep, ih (j + 1) (by omega), List.drop_eq_getElem_cons hj]
    rfl

/-- Past the end of `files` the copy loop panics. -/
theorem copyLoop_of_gt {β : Type} (files : List β) (n j : ℕ) (hpos : 0 < n)
    (h : files.length < j + n) : copyLoop files (j : Int) n = none := by
  induction n generalizing j with
  | zero => omega
  | succ n ih =>
    have hstep : ((j : Int) + 1) = ((j + 1 : ℕ) : Int) := by push_cast; rfl
    have hneg : ¬ ((j : Int) < 0) := by omega
    rw [copyLoop, if_neg hneg, Int.toNat_ofNat]
    by_cases hj : j < files.length
    · rw [List.getElem?_eq_getElem hj]
      simp only []
      rw [hstep, ih (j + 1) (by omega) (by omega)]
      rfl
    · rw [List.getElem?_eq_none (Nat.le_of_not_lt hj)]

end SortLemmas

/-! ## Paging (`respond`) -/

section Respond

variable {α : Type} [LinearOrder α]

/-- **C1.** When the match result holds `n ≥ 1` ids and the page
`[pageIndex, pageIndex + L)` lies within it, `L` being the normalised limit
(`1` if `pageLimit` is `0`, `n` if `pageLimit > n`, otherwise `pageLimit`),
`respond` sends exactly one page: the elements at these positions of the match
result sorted ascending when `oldest` is set and descending otherwise. -/
theorem respond_delivers_page (toLower : String → String) (c : caches α)
    (header value : String) (m : keyType) (oldest : Bool) (pageIndex pageLimit n L : ℕ)
    (hn : (c.match_ toLower header value m).length = n) (h1 : 1 ≤ n)
    (hL : L = if pageLimit = 0 then 1 else if pageLimit > n then n else pageLimit)
    (hi : pageIndex < n) (hb : pageIndex + L ≤ n) :
    ∃ sorted : List α,
      sorted.Perm (c.match_ toLower header value m) ∧
      (oldest = true → sorted.Sorted (fun a b => a ≤ b)) ∧
      (oldest = false → sorted.Sorted (fun a b => b ≤ a)) ∧
      c.respond toLower ⟨header, value, pageIndex, pageLimit, oldest, m⟩ =
        some (c.sortInPlace toLower header value m sorted,
          some ((sorted.drop pageIndex).take L)) := by
  have hlim : (if (if (pageLimit : Int) = 0 then (1 : Int) else pageLimit) > (n : Int)
      then (n : Int) else (if (pageLimit : Int) = 0 then (1 : Int) else pageLimit))
      = (L : Int) := by
    subst hL
    by_cases h0 : pageLimit = 0
    · subst h0
      have : ¬ ((1 : Int) > (n : Int)) := by omega
      simp [this]
    · have h0' : ¬ ((pageLimit : Int) = 0) := by omega
      by_cases hgt : pageLimit > n
      · have : (pageLimit : Int) > (n : Int) := by omega
        simp [h0, h0', hgt, this]
      · have : ¬ ((pageLimit : Int) > (n : Int)) := by omega
        simp [h0, h0', hgt, this]
  have hz : ¬ ((n : Int) = 0) := by omega
  have hge : ¬ ((pageIndex : Int) ≥ (n : Int)) := by omega
  have hLneg : ¬ ((L : Int) < 0) := by omega
  cases oldest
  · refine ⟨sortDesc (c.match_ toLower header value m), sortDesc_perm _,
      fun ho => Bool.noConfusion ho, fun _ => sortDesc_sorted _, ?_⟩
    have hcopy := copyLoop_of_le (sortDesc (c.match_ toLower header value m)) L pageIndex
      (by rw [sortDesc_length]; omega)
    unfold caches.respond
    simp only [hn, hz, if_false, hlim, hge, hLneg, Int.toNat_ofNat, Bool.not_false, if_true,
      hcopy]
  · refine ⟨sortAsc (c.match_ toLower header value m), sortAsc_perm _,
      fun _ => sortAsc_sorted _, fun ho => Bool.noConfusion ho, ?_⟩
    have hcopy := copyLoop_of_le (sortAsc (c.match_ toLower header value m)) L pageIndex
      (by rw [sortAsc_length]; omega)
    unfold caches.respond
    simp only [hn, hz, if_false, hlim, hge, hLneg, Int.toNat_ofNat, Bool.not_true,
      Bool.false_eq_true, hcopy]

/-- Witness of C1: page `[2, 4)` of the five ids of `store5`, newest first. -/
theorem respond_delivers_page_witness :
    ∃ sorted : List Nat,
      sorted.Perm (store5.match_ asciiToLower "From" "alice@x.com" keyType.keyTypeExact) ∧
      (false = true → sorted.Sorted (fun a b => a ≤ b)) ∧
      (false = false → sorted.Sorted (fun a b => b ≤ a)) ∧
      store5.respond asciiToLower ⟨"From", "alice@x.com", (2 : ℕ), (2 : ℕ), false,
          keyType.keyTypeExact⟩ =
        some (store5.sortInPlace asciiToLower "From" "alice@x.com" keyType.keyTypeExact sorted,
          some ((sorted.drop 2).take 2)) :=
  respond_delivers_page asciiToLower store5 "From" "alice@x.com" keyType.keyTypeExact false
    2 2 5 2 (by decide) (by decide) (by decide) (by decide) (by decide)

/-- **C2 (failing input).** On the bucket `[5, 4, 3, 2, 1]` the query with
`pageIndex = 4` and `pageLimit = 2` does not deliver the last page `[1]`: the
copy loop reads `files[5]` and panics. -/
theorem respond_last_page_panics :
    store5.respond asciiToLower ⟨"From", "alice@x.com", 4, 2, false, keyType.keyTypeExact⟩
      = none := by
  decide

/-- **C3 (failing input).** A PARTIAL query with `pageIndex = 1 ≥ 0` and
`pageLimit = 2 ≥ 0` on a match result of two ids panics on `files[2]`: it
neither delivers a page nor signals no-result. -/
theorem respond_out_of_range_panics :
    store2.respond asciiToLower ⟨"From", "alic", 1, 2, true, keyType.keyTypePart⟩ = none := by
  decide

end Respond

/-! ## Removal (`remove`) -/

section Remove

variable {α : Type} [LinearOrder α]

/-- The inner scan of `diff` on a sorted `B`, given that the scan of the rest of
`A` is right on every sorted `B` and that `a` is below the rest of `A`. -/
theorem diffScan_eq_filter (a : α) (as : List α) (rest : List α → List α)
    (hrest : ∀ B : List α, B.Sorted (fun x y => x ≤ y) →
      rest B = as.filter (fun x => decide (x ∉ B)))
    (ha : ∀ x ∈ as, a < x) :
    ∀ B : List α, B.Sorted (fun x y => x ≤ y) →
      diffScan a rest B = (a :: as).filter (fun x => decide (x ∉ B)) := by
  intro B
  induction B with
  | nil =>
    intro hB
    simp [diffScan, hrest [] hB]
  | cons b bs ih =>
    intro hB
    have hB' := List.sorted_cons.1 hB
    rcases lt_trichotomy a b with hab | hab | hab
    · have hnot : a ∉ b :: bs := by
        intro hm
        rcases List.mem_cons.1 hm with h | h
        · exact absurd h (ne_of_lt hab)
        · exact absurd (hB'.1 a h) (not_le_of_lt hab)
      rw [diffScan, if_pos hab, hrest (b :: bs) hB, List.filter_cons_of_pos (by simpa using hnot)]
    · subst hab
      have hin : List.filter (fun x => decide (x ∉ a :: bs)) (a :: as)
          = List.filter (fun x => decide (x ∉ a :: bs)) as := by
        simp [List.filter_cons]
      rw [diffScan, if_neg (lt_irrefl a), if_neg (lt_irrefl a), hrest bs hB'.2, hin]
      apply List.filter_congr
      intro x hx
      have hne : x ≠ a := ne_of_gt (ha x hx)
      simp [hne]
    · rw [diffScan, if_neg (not_lt_of_lt hab), if_pos hab, ih hB'.2]
      apply List.filter_congr
      intro x hx
      have hne : x ≠ b := by
        rcases List.mem_cons.1 hx with h | h
        · rw [h]; exact ne_of_gt hab
        · exact ne_of_gt (lt_trans hab (ha x h))
      simp [hne]

/-- On a strictly ascending `A` and an ascending `B`, `diff` keeps exactly the
elements of `A` that do not occur in `B`. -/
theorem diff_eq_filter (A : List α) (hA : A.Sorted (fun x y => x < y)) :
    ∀ B : List α, B.Sorted (fun x y => x ≤ y) →
      diff A B = A.filter (fun x => decide (x ∉ B)) := by
  induction A with
  | nil => intro B _; rfl
  | cons a as ih =>
    have hA' := List.sorted_cons.1 hA
    exact diffScan_eq_filter a as (diff as) (ih hA'.2) hA'.1

theorem caches.bucket_remove (c : caches α) (R : List α) (header value : String) :
    (c.remove R).bucket header value =
      (c.bucket header value).map (fun b => diff (sortAsc b) R) := by
  unfold caches.bucket caches.remove
  simp only [GoMap.get?_mapValues]
  cases c.data.get? header with
  | none => rfl
  | some cache =>
    simp only [Option.map_some', Option.some_bind, GoMap.get?_mapValues]

/-- **C4 (counterexample).** With the unsorted removal set `[2, 1]` the bucket
`[5, 4, 3, 2, 1]` keeps the id `1`, which occurs in the removal set; and the
bucket `[7, 7]` keeps one `7` after the removal of `[7]`. -/
theorem remove_counterexample :
    ((store5.remove [2, 1]).bucket "From" "alice@x.com" = some [1, 3, 4, 5] ∧ 1 ∈ [2, 1]) ∧
    ((storeDup.remove [7]).bucket "From" "bob@x.com" = some [7] ∧ 7 ∈ [7]) := by
  decide

/-- **C4 (amended).** For a removal set `R` sorted ascending and a bucket that
holds no id twice, after `remove R` the bucket is its previous contents sorted
ascending without the ids that occur in `R`: it holds exactly the previous ids
not in `R`, and all of them when the bucket shares no id with `R`. -/
theorem remove_sorted_subtracts (c : caches α) (R : List α) (header value : String)
    (b : List α) (hR : R.Sorted (fun x y => x ≤ y)) (hb : c.bucket header value = some b)
    (hnd : b.Nodup) :
    (c.remove R).bucket header value
        = some ((sortAsc b).filter (fun x => decide (x ∉ R))) ∧
      (∀ x, x ∈ (sortAsc b).filter (fun x => decide (x ∉ R)) ↔ x ∈ b ∧ x ∉ R) ∧
      ((∀ x ∈ b, x ∉ R) → ((sortAsc b).filter (fun x => decide (x ∉ R))).Perm b) := by
  have hs : (sortAsc b).Sorted (fun x y => x < y) :=
    (sortAsc_sorted b).lt_of_le ((sortAsc_perm b).nodup_iff.2 hnd)
  refine ⟨?_, ?_, ?_⟩
  · rw [caches.bucket_remove, hb, Option.map_some', diff_eq_filter _ hs R hR]
  · intro x
    rw [List.mem_filter, (sortAsc_perm b).mem_iff]
    simp
  · intro hdis
    have hall : (sortAsc b).filter (fun x => decide (x ∉ R)) = sortAsc b := by
      rw [List.filter_eq_self]
      intro x hx
      have := hdis x ((sortAsc_perm b).mem_iff.1 hx)
      simpa using this
    rw [hall]
    exact sortAsc_perm b

/-- Witness of C4 (amended): the sorted removal set `[1, 2]` on `store5`. -/
theorem remove_sorted_subtracts_witness :
    (store5.remove [1, 2]).bucket "From" "alice@x.com"
        = some ((sortAsc [5, 4, 3, 2, 1]).filter (fun x => decide (x ∉ [1, 2]))) ∧
      (∀ x, x ∈ (sortAsc [5, 4, 3, 2, 1]).filter (fun x => decide (x ∉ [1, 2])) ↔
        x ∈ [5, 4, 3, 2, 1] ∧ x ∉ [1, 2]) ∧
      ((∀ x ∈ [5, 4, 3, 2, 1], x ∉ [1, 2]) →
        ((sortAsc [5, 4, 3, 2, 1]).filter (fun x => decide (x ∉ [1, 2]))).Perm [5, 4, 3, 2, 1]) :=
  remove_sorted_subtracts store5 [1, 2] "From" "alice@x.com" [5, 4, 3, 2, 1]
    (by decide) (by decide) (by decide)

end Remove

/-! ## Insertion (`add`) and construction (`newCaches`) -/

section Add

variable {α : Type}

/-- What `add` does on a known header: the value index of the header is
replaced by one that binds `key` to the old bucket extended by `value` and
agrees with the old index on every other key. -/
theorem caches.add_known (c : caches α) (h k : String) (id : α) (cache : cacheString α)
    (hc : c.data.get? h = some cache) :
    ∃ cache2 : cacheString α,
      c.add ⟨h, k, id⟩ = some ⟨c.data.assign h cache2⟩ ∧
      cache2.get? k = some ((cache.get? k).getD [] ++ [id]) ∧
      ∀ k', k' ≠ k → cache2.get? k' = cache.get? k' := by
  refine ⟨(if (cache.get? k).isNone then cache.assign k newMailFiles else cache).assign k
    (((if (cache.get? k).isNone then cache.assign k newMailFiles else cache).get? k).getD []
      ++ [id]), ?_, ?_, ?_⟩
  · simp only [caches.add, hc]
  · rw [GoMap.get?_assign_self]
    cases hk : cache.get? k with
    | none => simp [GoMap.get?_assign_self, newMailFiles]
    | some b => simp [hk]
  · intro k' hk'
    rw [GoMap.get?_assign_ne _ hk']
    cases hk : cache.get? k with
    | none => simp [GoMap.get?_assign_ne _ hk']
    | some b => simp

/-- The method `add` panics on a header that is not a key of the store. -/
theorem caches.add_unknown (c : caches α) (entry : cacheEntry α)
    (hc : c.data.get? entry.name = none) : c.add entry = none := by
  simp only [caches.add, hc]

theorem mem_keys_foldl_init (keys : List String) (c : caches α) (h : String) :
    h ∈ (keys.foldl (fun c i => c.initCachesString i) c).data.keys ↔
      h ∈ c.data.keys ∨ h ∈ keys := by
  induction keys generalizing c with
  | nil => simp
  | cons k t ih =>
    rw [List.foldl_cons, ih, caches.initCachesString, GoMap.mem_keys_assign, List.mem_cons]
    tauto

theorem get?_foldl_init (keys : List String) (c : caches α) (h : String)
    (cache : cacheString α)
    (hc : ∀ cache', c.data.get? h = some cache' → cache' = GoMap.empty)
    (hget : (keys.foldl (fun c i => c.initCachesString i) c).data.get? h = some cache) :
    cache = GoMap.empty := by
  induction keys generalizing c with
  | nil => exact hc cache hget
  | cons k t ih =>
    rw [List.foldl_cons] at hget
    refine ih (c.initCachesString k) ?_ hget
    intro cache' hc'
    by_cases hk : h = k
    · subst hk
      rw [caches.initCachesString, GoMap.get?_assign_self] at hc'
      exact (Option.some.inj hc').symm
    · rw [caches.initCachesString, GoMap.get?_assign_ne _ hk] at hc'
      exact hc cache' hc'

/-- The headers of a store built by `newCaches` are the given names. -/
theorem mem_keys_newCaches (keys : List String) (h : String) :
    h ∈ (newCaches keys : caches α).data.keys ↔ h ∈ keys := by
  unfold newCaches
  rw [mem_keys_foldl_init]
  simp [GoMap.keys, GoMap.empty]

/-- A store built by `newCaches` has no bucket. -/
theorem bucket_newCaches (keys : List String) (h k : String) :
    (newCaches keys : caches α).bucket h k = none := by
  unfold caches.bucket
  cases hg : (newCaches keys : caches α).data.get? h with
  | none => rfl
  | some cache =>
    have : cache = GoMap.empty := by
      unfold newCaches at hg
      exact get?_foldl_init keys _ h cache (fun cache' hc' => by
        rw [GoMap.get?_empty] at hc'; exact Option.noConfusion hc') hg
    subst this
    rfl

variable [LinearOrder α]

/-- **C5.** On a header `h` of the store, `add(h, k, id)` succeeds; afterwards
the bucket `(h, k)` is its previous contents (empty if there was none) followed
by `id`, every other bucket is as before, and an EXACT match on `(h, k)` returns
that bucket.  On a store fresh from `newCaches` the EXACT query with
`pageIndex 0`, `pageLimit 1`, newest first, then delivers exactly `[id]`. -/
theorem add_appends (toLower : String → String) (c : caches α) (h k : String) (id : α)
    (hc : h ∈ c.data.keys) :
    ∃ c' : caches α,
      c.add ⟨h, k, id⟩ = some c' ∧
      c'.bucket h k = some ((c.bucket h k).getD [] ++ [id]) ∧
      (∀ h' k', ¬ (h' = h ∧ k' = k) → c'.bucket h' k' = c.bucket h' k') ∧
      c'.match_ toLower h k keyType.keyTypeExact = (c.bucket h k).getD [] ++ [id] ∧
      (∀ keys, c = newCaches keys →
        (c'.respond toLower ⟨h, k, 0, 1, false, keyType.keyTypeExact⟩).map Prod.snd
          = some (some [id])) := by
  cases hg : c.data.get? h with
  | none => exact absurd hc ((GoMap.get?_eq_none_iff _ _).1 hg)
  | some cache =>
    obtain ⟨cache2, hadd, hk, hne⟩ := caches.add_known c h k id cache hg
    have hb : c.bucket h k = cache.get? k := by simp [caches.bucket, hg]
    have hmatch : (⟨c.data.assign h cache2⟩ : caches α).match_ toLower h k
        keyType.keyTypeExact = (c.bucket h k).getD [] ++ [id] := by
      simp [caches.match_, GoMap.get?_assign_self, hk, hb]
    refine ⟨⟨c.data.assign h cache2⟩, hadd, ?_, ?_, hmatch, ?_⟩
    · rw [hb]
      simp [caches.bucket, GoMap.get?_assign_self, hk]
    · intro h' k' hne'
      by_cases hh : h' = h
      · subst hh
        have hk' : k' ≠ k := fun e => hne' ⟨rfl, e⟩
        simp [caches.bucket, GoMap.get?_assign_self, hne k' hk', hg]
      · simp [caches.bucket, GoMap.get?_assign_ne _ hh]
    · intro keys hkeys
      have hnone : c.bucket h k = none := by rw [hkeys]; exact bucket_newCaches keys h k
      rw [hnone] at hmatch
      simp only [Option.getD_none, List.nil_append] at hmatch
      simp [caches.respond, hmatch, sortDesc, copyLoop]

/-- Witness of C5: the first `add` into the store built for the header `From`. -/
theorem add_appends_witness :
    ∃ c' : caches Nat,
      (newCaches ["From"] : caches Nat).add ⟨"From", "alice@x.com", 1⟩ = some c' ∧
      c'.bucket "From" "alice@x.com" =
        some (((newCaches ["From"] : caches Nat).bucket "From" "alice@x.com").getD [] ++ [1]) ∧
      (∀ h' k', ¬ (h' = "From" ∧ k' = "alice@x.com") →
        c'.bucket h' k' = (newCaches ["From"] : caches Nat).bucket h' k') ∧
      c'.match_ asciiToLower "From" "alice@x.com" keyType.keyTypeExact =
        ((newCaches ["From"] : caches Nat).bucket "From" "alice@x.com").getD [] ++ [1] ∧
      (∀ keys, (newCaches ["From"] : caches Nat) = newCaches keys →
        (c'.respond asciiToLower ⟨"From", "alice@x.com", 0, 1, false,
          keyType.keyTypeExact⟩).map Prod.snd = some (some [1])) :=
  add_appends asciiToLower (newCaches ["From"]) "From" "alice@x.com" 1 (by decide)

/-- **C6 (failing input).** On the store built for the headers `From` and `To`
an `add` under the header `Cc` is not discarded: the assignment into the nil
map `c.data["Cc"]` panics. -/
theorem add_unknown_header_panics :
    (newCaches ["From", "To"] : caches Nat).add ⟨"Cc", "carol@x.com", 1⟩ = none := by
  decide

end Add

/-! ## Matching (`match`) -/

section Match

variable {α : Type}

/-- Membership in the result of the scan of a PARTIAL match. -/
theorem mem_foldl_partial (q : String) (l : List (String × List α)) (init : List α) (id : α) :
    id ∈ l.foldl (fun results p => if strContains p.1 q then results ++ p.2 else results) init
      ↔ id ∈ init ∨ ∃ p ∈ l, strContains p.1 q = true ∧ id ∈ p.2 := by
  induction l generalizing init with
  | nil => simp
  | cons p t ih =>
    rw [List.foldl_cons, ih]
    by_cases hp : strContains p.1 q = true
    · simp only [hp, if_true, List.mem_append, List.mem_cons, exists_eq_or_imp, true_and]
      tauto
    · simp [hp]

/-- The result of `match` in the modes other than PARTIAL. -/
theorem caches.match_eq_bucket (toLower : String → String) (c : caches α) (h v : String)
    (m : keyType) (hm : m ≠ keyType.keyTypePart) :
    c.match_ toLower h v m =
      (c.bucket h (if m = keyType.keyTypeAddr then toLower v else v)).getD [] := by
  unfold caches.match_ caches.bucket
  cases c.data.get? h with
  | none => rfl
  | some cache => simp [hm]

/-- **C8.** On a known header `h`, an id occurs in `match(h, q, PARTIAL)` exactly
when some value `v` indexed under `h` has `q` as a substring and the id occurs
in the bucket `(h, v)`. -/
theorem match_partial_iff (toLower : String → String) (c : caches α) (h q : String) (id : α)
    (hc : h ∈ c.data.keys) :
    id ∈ c.match_ toLower h q keyType.keyTypePart ↔
      ∃ v files, c.bucket h v = some files ∧ q.data <:+: v.data ∧ id ∈ files := by
  cases hg : c.data.get? h with
  | none => exact absurd hc ((GoMap.get?_eq_none_iff _ _).1 hg)
  | some cache =>
    have hmatch : c.match_ toLower h q keyType.keyTypePart =
        cache.entries.foldl
          (fun results p => if strContains p.1 q then results ++ p.2 else results) [] := by
      simp [caches.match_, hg, newMailFiles]
    rw [hmatch, mem_foldl_partial]
    simp only [List.not_mem_nil, false_or, caches.bucket, hg, Option.some_bind,
      GoMap.get?_eq_some_iff, strContains, decide_eq_true_eq]
    constructor
    · rintro ⟨⟨v, files⟩, hp, hq, hid⟩
      exact ⟨v, files, hp, hq, hid⟩
    · rintro ⟨v, files, hp, hq, hid⟩
      exact ⟨(v, files), hp, hq, hid⟩

/-- Witness of C8: with the buckets `alice@x.com ↦ [1]` and `alicia@y.com ↦ [2]`
the PARTIAL query `alic` yields exactly the ids `1` and `2`. -/
theorem match_partial_iff_witness :
    (1 ∈ store2.match_ asciiToLower "From" "alic" keyType.keyTypePart ↔
      ∃ v files, store2.bucket "From" v = some files ∧ "alic".data <:+: v.data ∧ 1 ∈ files) ∧
    store2.match_ asciiToLower "From" "alic" keyType.keyTypePart = [1, 2] :=
  ⟨match_partial_iff asciiToLower store2 "From" "alic" 1 (by decide), by decide⟩

/-- **C9.** An ADDRESS match on `v` is the EXACT match on `toLower v`; hence
when `id` has been added under the value `k` and `toLower v = k`, the ADDRESS
match on `v` returns the bucket `(h, k)`, which contains `id`. -/
theorem match_address_eq_exact_lower (toLower : String → String) (c : caches α)
    (h v : String) :
    c.match_ toLower h v keyType.keyTypeAddr
        = c.match_ toLower h (toLower v) keyType.keyTypeExact ∧
    ∀ (c₀ : caches α) (k : String) (id : α), c₀.add ⟨h, k, id⟩ = some c → toLower v = k →
      c.bucket h k = some (c.match_ toLower h v keyType.keyTypeAddr) ∧
      id ∈ c.match_ toLower h v keyType.keyTypeAddr := by
  have haddr : c.match_ toLower h v keyType.keyTypeAddr = (c.bucket h (toLower v)).getD [] := by
    rw [caches.match_eq_bucket toLower c h v _ (by decide)]
    simp
  have hexact : c.match_ toLower h (toLower v) keyType.keyTypeExact
      = (c.bucket h (toLower v)).getD [] := by
    rw [caches.match_eq_bucket toLower c h (toLower v) _ (by decide)]
    simp
  refine ⟨by rw [haddr, hexact], ?_⟩
  intro c₀ k id hadd hk
  cases hg : c₀.data.get? h with
  | none =>
    rw [caches.add_unknown c₀ ⟨h, k, id⟩ hg] at hadd
    exact Option.noConfusion hadd
  | some cache =>
    obtain ⟨cache2, hadd', hk2, _⟩ := caches.add_known c₀ h k id cache hg
    rw [hadd'] at hadd
    have hc : c = ⟨c₀.data.assign h cache2⟩ := (Option.some.inj hadd).symm
    have hb : c.bucket h k = some ((cache.get? k).getD [] ++ [id]) := by
      rw [hc]
      simp [caches.bucket, GoMap.get?_assign_self, hk2]
    rw [haddr, hk, hb]
    simp

/-- Witness of C9: `1` added under `alice@x.com` is found by the ADDRESS query
`ALICE@X.COM`. -/
theorem match_address_eq_exact_lower_witness :
    store1.bucket "From" "alice@x.com"
        = some (store1.match_ asciiToLower "From" "ALICE@X.COM" keyType.keyTypeAddr) ∧
      1 ∈ store1.match_ asciiToLower "From" "ALICE@X.COM" keyType.keyTypeAddr :=
  (match_address_eq_exact_lower asciiToLower store1 "From" "ALICE@X.COM").2
    store0 "alice@x.com" 1 (by decide) (by decide)

/-- **C10.** An EXACT match returns the bucket `c.data[h][v]` as it is stored,
`v` taken literally, when `h` is a header of the store and `v` is indexed under
it, and the empty set when `h` is unknown or `v` is absent. -/
theorem match_exact_verbatim (toLower : String → String) (c : caches α) (h v : String) :
    (∀ cache b, c.data.get? h = some cache → cache.get? v = some b →
      c.match_ toLower h v keyType.keyTypeExact = b) ∧
    (h ∉ c.data.keys → c.match_ toLower h v keyType.keyTypeExact = []) ∧
    (∀ cache, c.data.get? h = some cache → v ∉ cache.keys →
      c.match_ toLower h v keyType.keyTypeExact = []) := by
  refine ⟨?_, ?_, ?_⟩
  · intro cache b hc hb
    simp [caches.match_, hc, hb]
  · intro hh
    rw [← GoMap.get?_eq_none_iff] at hh
    simp [caches.match_, hh]
  · intro cache hc hv
    rw [← GoMap.get?_eq_none_iff] at hv
    simp [caches.match_, hc, hv]

/-- Witness of C10: the bucket of `store1` is returned as stored. -/
theorem match_exact_verbatim_witness :
    store1.match_ asciiToLower "From" "alice@x.com" keyType.keyTypeExact = [1] :=
  (match_exact_verbatim asciiToLower store1 "From" "alice@x.com").1 cache1 [1]
    (by decide) (by decide)

end Match

/-! ## The dispatch loop (`run`) -/

section Run

variable {α : Type}

theorem caches.mem_keys_add (c c' : caches α) (entry : cacheEntry α)
    (hadd : c.add entry = some c') (x : String) : x ∈ c'.data.keys ↔ x ∈ c.data.keys := by
  cases hg : c.data.get? entry.name with
  | none =>
    rw [caches.add_unknown c entry hg] at hadd
    exact Option.noConfusion hadd
  | some cache =>
    obtain ⟨cache2, hadd', _, _⟩ := caches.add_known c entry.name entry.key entry.value cache hg
    rw [hadd'] at hadd
    rw [← Option.some.inj hadd, GoMap.mem_keys_assign]
    constructor
    · rintro (hx | hx)
      · rw [hx]; exact GoMap.mem_keys_of_get? hg
      · exact hx
    · exact Or.inr

theorem caches.mem_keys_sortInPlace (toLower : String → String) (c : caches α)
    (header value : String) (m : keyType) (sorted : List α) (x : String) :
    x ∈ (c.sortInPlace toLower header value m sorted).data.keys ↔ x ∈ c.data.keys := by
  unfold caches.sortInPlace
  by_cases hm : m = keyType.keyTypePart
  · simp [hm]
  · cases hg : c.data.get? header with
    | none => simp [hm]
    | some cache =>
      simp only [hm, if_false, GoMap.mem_keys_assign]
      constructor
      · rintro (hx | hx)
        · rw [hx]; exact GoMap.mem_keys_of_get? hg
        · exact hx
      · exact Or.inr

variable [LinearOrder α]

theorem caches.keys_remove (c : caches α) (R : List α) :
    (c.remove R).data.keys = c.data.keys :=
  GoMap.keys_mapValues _ _

/-- The store that `respond` leaves is the old one, up to the in-place sort of
the matched bucket. -/
theorem caches.respond_store (toLower : String → String) (c c' : caches α) (r : cacheRequest)
    (reply : Option (List α)) (h : c.respond toLower r = some (c', reply)) :
    c' = c ∨ ∃ sorted, c' = c.sortInPlace toLower r.header r.value r.match_ sorted := by
  unfold caches.respond at h
  simp only [] at h
  split_ifs at h <;>
    first
    | exact Or.inl (congrArg Prod.fst (Option.some.inj h)).symm
    | exact Option.noConfusion h
    | (split at h
       · exact Option.noConfusion h
       · exact Or.inr ⟨_, (congrArg Prod.fst (Option.some.inj h)).symm⟩)

/-- On a header that is not a key of the store `respond` closes the reply
channel without a page and leaves the store as it is. -/
theorem caches.respond_unknown (toLower : String → String) (c : caches α) (r : cacheRequest)
    (hh : r.header ∉ c.data.keys) : c.respond toLower r = some (c, none) := by
  rw [← GoMap.get?_eq_none_iff] at hh
  simp [caches.respond, caches.match_, hh]

theorem caches.mem_keys_step (toLower : String → String) (c c' : caches α) (msg : Msg α)
    (h : c.step toLower msg = some c') (x : String) :
    x ∈ c'.data.keys ↔ x ∈ c.data.keys := by
  cases msg with
  | list r => rw [← Option.some.inj h]
  | request r =>
    simp only [caches.step] at h
    cases hr : c.respond toLower r with
    | none => rw [hr] at h; exact Option.noConfusion h
    | some p =>
      obtain ⟨c₁, reply⟩ := p
      rw [hr] at h
      have hc : c₁ = c' := Option.some.inj h
      subst hc
      rcases caches.respond_store toLower c c₁ r reply hr with he | ⟨sorted, he⟩
      · rw [he]
      · rw [he, caches.mem_keys_sortInPlace]
  | add entry => exact caches.mem_keys_add c c' entry h x
  | remove files =>
    rw [← Option.some.inj h]
    simp only [caches.keys_remove]

theorem caches.mem_keys_run (toLower : String → String) (msgs : List (Msg α))
    (c c' : caches α) (h : c.run toLower msgs = some c') (x : String) :
    x ∈ c'.data.keys ↔ x ∈ c.data.keys := by
  induction msgs generalizing c with
  | nil => rw [← Option.some.inj h]
  | cons msg rest ih =>
    simp only [caches.run] at h
    cases hs : c.step toLower msg with
    | none => rw [hs] at h; exact Option.noConfusion h
    | some c₁ =>
      rw [hs] at h
      rw [ih c₁ h, caches.mem_keys_step toLower c c₁ msg hs]

/-- On every store that the loop reaches from `newCaches H`, that is after any
messages it has served without a panic, the header names are exactly those of
`H`; a match request or a list request on a header `C` outside `H` then yields
no result and leaves the store as it is. -/
theorem run_preserves_headers (toLower : String → String) (H : List String)
    (msgs : List (Msg α)) (c : caches α) (hrun : (newCaches H).run toLower msgs = some c) :
    (∀ h, h ∈ c.data.keys ↔ h ∈ H) ∧
    ∀ C, C ∉ H →
      (∀ (value : String) (m : keyType) (index limit : Int) (oldest : Bool),
        c.respond toLower ⟨C, value, index, limit, oldest, m⟩ = some (c, none)) ∧
      c.list ⟨C⟩ = none := by
  have hkeys : ∀ h, h ∈ c.data.keys ↔ h ∈ H := fun h => by
    rw [caches.mem_keys_run toLower msgs _ c hrun, mem_keys_newCaches]
  refine ⟨hkeys, fun C hC => ⟨?_, ?_⟩⟩
  · intro value m index limit oldest
    exact caches.respond_unknown toLower c _ (fun hm => hC ((hkeys C).1 hm))
  · have hn : c.data.get? C = none :=
      (GoMap.get?_eq_none_iff _ _).2 (fun hm => hC ((hkeys C).1 hm))
    simp [caches.list, hn]

/-- An instance of `run_preserves_headers`: an add, a match request, a removal
and a list request served by the actor built for the headers `From` and `To`. -/
theorem run_preserves_headers_witness :
    (∀ h, h ∈ storeAfter.data.keys ↔ h ∈ ["From", "To"]) ∧
    ∀ C, C ∉ ["From", "To"] →
      (∀ (value : String) (m : keyType) (index limit : Int) (oldest : Bool),
        storeAfter.respond asciiToLower ⟨C, value, index, limit, oldest, m⟩
          = some (storeAfter, none)) ∧
      storeAfter.list ⟨C⟩ = none :=
  run_preserves_headers asciiToLower ["From", "To"]
    [Msg.add ⟨"From", "alice@x.com", 1⟩,
     Msg.request ⟨"From", "alice@x.com", 0, 1, false, keyType.keyTypeExact⟩,
     Msg.remove [1],
     Msg.list ⟨"From"⟩]
    storeAfter (by decide)

/-- **C7 (failing input).** On the store built for the headers `From` and `To`,
the traffic that starts with an `add` under the header `Cc` stops the loop: the
`add` panics, no store is left after the sequence, and the following match
request on `Cc` is never answered. -/
theorem run_unknown_add_panics :
    (newCaches ["From", "To"] : caches Nat).run asciiToLower
      [Msg.add ⟨"Cc", "carol@x.com", 1⟩,
       Msg.request ⟨"Cc", "carol@x.com", 0, 1, false, keyType.keyTypeExact⟩] = none := by
  decide

end Run

/-! ## What `respond` answers -/

section Answers

variable {α : Type}

theorem copyLoop_length {β : Type} (files : List β) (n : ℕ) (j : Int) (res : List β)
    (h : copyLoop files j n = some res) : res.length = n := by
  induction n generalizing j res with
  | zero =>
    rw [copyLoop] at h
    rw [← Option.some.inj h]
    rfl
  | succ n ih =>
    rw [copyLoop] at h
    split_ifs at h
    split at h
    · exact Option.noConfusion h
    · cases hrec : copyLoop files (j + 1) n with
      | none => rw [hrec] at h; exact Option.noConfusion h
      | some rest =>
        rw [hrec] at h
        rw [← Option.some.inj h, List.length_cons, ih (j + 1) rest hrec]

variable [LinearOrder α]

/-- On an empty match result `respond` closes the reply channel without a page
and leaves the store as it is. -/
theorem caches.respond_empty (toLower : String → String) (c : caches α) (r : cacheRequest)
    (h : c.match_ toLower r.header r.value r.match_ = []) :
    c.respond toLower r = some (c, none) := by
  simp [caches.respond, h]

/-- On a page index at or past the number of matched ids `respond` closes the
reply channel without a page and leaves the store as it is. -/
theorem caches.respond_index_ge (toLower : String → String) (c : caches α) (r : cacheRequest)
    (h : ((c.match_ toLower r.header r.value r.match_).length : Int) ≤ r.index) :
    c.respond toLower r = some (c, none) := by
  unfold caches.respond
  simp only []
  split_ifs <;> rfl

/-- What is known when `respond` has sent a page. -/
theorem caches.respond_page_inv (toLower : String → String) (c c' : caches α)
    (r : cacheRequest) (page : List α) (h : c.respond toLower r = some (c', some page)) :
    ∃ (sorted : List α) (lim : Int),
      sorted.Perm (c.match_ toLower r.header r.value r.match_) ∧
      c' = c.sortInPlace toLower r.header r.value r.match_ sorted ∧
      1 ≤ lim ∧ lim ≤ max r.limit 1 ∧
      lim ≤ ((c.match_ toLower r.header r.value r.match_).length : Int) ∧
      r.index < ((c.match_ toLower r.header r.value r.match_).length : Int) ∧
      copyLoop sorted r.index lim.toNat = some page := by
  unfold caches.respond at h
  simp only [] at h
  split_ifs at h <;>
    first
    | cases h
    | (split at h
       · exact Option.noConfusion h
       · rename_i result hcopy
         simp only [Option.some.injEq, Prod.mk.injEq] at h
         obtain ⟨hc, hp⟩ := h
         subst hp
         refine ⟨_, _, ?_, hc.symm, ?_, ?_, ?_, ?_, hcopy⟩
         · first | exact sortDesc_perm _ | exact sortAsc_perm _
         all_goals omega)

/-- What is known when `respond` has closed the reply channel without a page. -/
theorem caches.respond_none_inv (toLower : String → String) (c c' : caches α)
    (r : cacheRequest) (h : c.respond toLower r = some (c', none)) :
    c' = c ∧ (c.match_ toLower r.header r.value r.match_ = [] ∨
      ((c.match_ toLower r.header r.value r.match_).length : Int) ≤ r.index) := by
  unfold caches.respond at h
  simp only [] at h
  split_ifs at h with h0 h1 <;>
    first
    | (simp only [Option.some.injEq, Prod.mk.injEq, and_true] at h
       refine ⟨h.symm, ?_⟩
       first
       | (left; exact List.length_eq_zero.1 (by exact_mod_cast h0))
       | (right; exact h1))
    | cases h
    | (split at h <;> cases h)

/-- A page sent by `respond` is never empty. -/
theorem caches.respond_page_ne_nil (toLower : String → String) (c c' : caches α)
    (r : cacheRequest) (page : List α) (h : c.respond toLower r = some (c', some page)) :
    page ≠ [] := by
  obtain ⟨sorted, lim, _, _, h1, _, _, _, hcopy⟩ := caches.respond_page_inv toLower c c' r page h
  have hlen := copyLoop_length sorted lim.toNat r.index page hcopy
  intro hp
  rw [hp] at hlen
  simp only [List.length_nil] at hlen
  omega

/-- **C11.** On a header name that is not a key of the store, `match` returns
the empty result for every value in each of the modes EXACT, ADDRESS and
PARTIAL, `respond` closes the reply channel without a page, and `list` closes
its reply channel without a value; none of them panics. -/
theorem unknown_header_no_result (toLower : String → String) (c : caches α) (h : String)
    (hh : h ∉ c.data.keys) :
    (∀ v, c.match_ toLower h v keyType.keyTypeExact = [] ∧
      c.match_ toLower h v keyType.keyTypeAddr = [] ∧
      c.match_ toLower h v keyType.keyTypePart = []) ∧
    (∀ (v : String) (m : keyType) (index limit : Int) (oldest : Bool),
      c.respond toLower ⟨h, v, index, limit, oldest, m⟩ = some (c, none)) ∧
    c.list ⟨h⟩ = none := by
  have hn : c.data.get? h = none := (GoMap.get?_eq_none_iff _ _).2 hh
  refine ⟨fun v => ⟨?_, ?_, ?_⟩, fun v m index limit oldest => ?_, ?_⟩
  · simp [caches.match_, hn]
  · simp [caches.match_, hn]
  · simp [caches.match_, hn]
  · exact caches.respond_unknown toLower c _ hh
  · simp [caches.list, hn]

/-- Witness of C11: the header `To` on a store built for the header `From`. -/
theorem unknown_header_no_result_witness :
    (∀ v, store0.match_ asciiToLower "To" v keyType.keyTypeExact = [] ∧
      store0.match_ asciiToLower "To" v keyType.keyTypeAddr = [] ∧
      store0.match_ asciiToLower "To" v keyType.keyTypePart = []) ∧
    (∀ (v : String) (m : keyType) (index limit : Int) (oldest : Bool),
      store0.respond asciiToLower ⟨"To", v, index, limit, oldest, m⟩ = some (store0, none)) ∧
    store0.list ⟨"To"⟩ = none :=
  unknown_header_no_result asciiToLower store0 "To" (by decide)

/-- **C12 (failing input).** The ADDRESS query `ALICE@X.COM` matches the five
ids of `store5` and `pageIndex = 3` is in range, yet with `pageLimit = 5` no
page is delivered: the copy loop reads `files[5]` and panics. -/
theorem respond_in_range_panics :
    (store5.match_ asciiToLower "From" "ALICE@X.COM" keyType.keyTypeAddr).length = 5 ∧
    store5.respond asciiToLower ⟨"From", "ALICE@X.COM", 3, 5, true, keyType.keyTypeAddr⟩
      = none := by
  decide

/-- **C13 (counterexample).** With `pageLimit = 0` the page delivered for the
bucket `[1]` is `[1]`, of length `1 > 0`. -/
theorem respond_limit_zero_counterexample :
    store1.respond asciiToLower ⟨"From", "alice@x.com", 0, 0, false, keyType.keyTypeExact⟩
      = some (store1, some [1]) ∧ ¬ ([1].length ≤ 0) := by
  decide

/-- **C13 (amended).** For `pageIndex ≥ 0` and `pageLimit ≥ 0`, a page that
`respond` delivers has length at most `pageLimit` when `pageLimit ≥ 1` and
length `1` when `pageLimit = 0`. -/
theorem respond_page_length_le (toLower : String → String) (c c' : caches α)
    (header value : String) (m : keyType) (oldest : Bool) (pageIndex pageLimit : ℕ)
    (page : List α)
    (h : c.respond toLower ⟨header, value, pageIndex, pageLimit, oldest, m⟩
      = some (c', some page)) :
    (1 ≤ pageLimit → page.length ≤ pageLimit) ∧ (pageLimit = 0 → page.length = 1) := by
  obtain ⟨sorted, lim, _, _, h1, h2, _, _, hcopy⟩ :=
    caches.respond_page_inv toLower c c' _ page h
  have hlen := copyLoop_length sorted lim.toNat _ page hcopy
  simp only [] at h2
  constructor
  · intro hp
    have : max (pageLimit : Int) 1 = pageLimit := max_eq_left (by omega)
    omega
  · intro hp
    subst hp
    have : max ((0 : ℕ) : Int) 1 = 1 := by decide
    omega

/-- Witness of C13 (amended): the first two of the five ids of `store5`. -/
theorem respond_page_length_le_witness :
    store5.respond asciiToLower ⟨"From", "alice@x.com", (0 : ℕ), (2 : ℕ), false,
        keyType.keyTypeExact⟩ = some (store5, some [5, 4]) ∧
      (1 ≤ 2 → [5, 4].length ≤ 2) ∧ (2 = 0 → [5, 4].length = 1) :=
  ⟨by decide, respond_page_length_le asciiToLower store5 store5 "From" "alice@x.com"
    keyType.keyTypeExact false 0 2 [5, 4] (by decide)⟩

end Answers

/-! ## Listing (`list`) and runs of `add` messages -/

section Listing

variable {α : Type}

theorem keys_assignList {V : Type} (k : String) (v : V) (l : List (String × V)) :
    (assignList k v l).map Prod.fst =
      if k ∈ l.map Prod.fst then l.map Prod.fst else l.map Prod.fst ++ [k] := by
  induction l with
  | nil => simp [assignList]
  | cons p t ih =>
    obtain ⟨k₀, v₀⟩ := p
    by_cases hk : k = k₀
    · subst hk
      simp [assignList]
    · by_cases hm : k ∈ t.map Prod.fst
      · simp [assignList, hk, ih, hm]
      · simp [assignList, hk, ih, hm]

theorem GoMap.keys_assign {V : Type} (m : GoMap V) (k : String) (v : V) :
    (m.assign k v).keys = if k ∈ m.keys then m.keys else m.keys ++ [k] :=
  keys_assignList k v m.entries

/-- The value index that `add` leaves under a known header: its bindings and
its keys. -/
theorem caches.add_known_keys (c : caches α) (h k : String) (id : α) (cache : cacheString α)
    (hc : c.data.get? h = some cache) :
    ∃ cache2 : cacheString α,
      c.add ⟨h, k, id⟩ = some ⟨c.data.assign h cache2⟩ ∧
      cache2.get? k = some ((cache.get? k).getD [] ++ [id]) ∧
      (∀ k', k' ≠ k → cache2.get? k' = cache.get? k') ∧
      cache2.keys = if k ∈ cache.keys then cache.keys else cache.keys ++ [k] := by
  obtain ⟨cache2, hadd, hk, hne⟩ := caches.add_known c h k id cache hc
  refine ⟨cache2, hadd, hk, hne, ?_⟩
  have hadd' : c.add ⟨h, k, id⟩ = some ⟨c.data.assign h
      ((if (cache.get? k).isNone then cache.assign k newMailFiles else cache).assign k
        (((if (cache.get? k).isNone then cache.assign k newMailFiles else cache).get? k).getD []
          ++ [id]))⟩ := by
    simp only [caches.add, hc]
  rw [hadd] at hadd'
  have heq := congrArg (fun c' : caches α => c'.data.get? h) (Option.some.inj hadd')
  simp only [GoMap.get?_assign_self, Option.some.injEq] at heq
  rw [heq, GoMap.keys_assign]
  cases hg : cache.get? k with
  | none =>
    have hk' : k ∉ cache.keys := (GoMap.get?_eq_none_iff _ _).1 hg
    simp [GoMap.keys_assign, hk']
  | some b =>
    have hk' : k ∈ cache.keys := GoMap.mem_keys_of_get? hg
    simp [hk']

variable [LinearOrder α]

/-- A run of `add` messages under a known header with pairwise distinct, new
values succeeds and extends the keys of the value index by these values. -/
theorem caches.run_adds_distinct (toLower : String → String) (h : String)
    (kvs : List (String × α)) :
    ∀ (c : caches α) (cache : cacheString α), c.data.get? h = some cache →
      (kvs.map Prod.fst).Nodup → (∀ v ∈ kvs.map Prod.fst, v ∉ cache.keys) →
      ∃ (c' : caches α) (cache' : cacheString α),
        c.run toLower (kvs.map (fun p => Msg.add ⟨h, p.1, p.2⟩)) = some c' ∧
        c'.data.get? h = some cache' ∧
        cache'.keys = cache.keys ++ kvs.map Prod.fst := by
  induction kvs with
  | nil =>
    intro c cache hc _ _
    exact ⟨c, cache, rfl, hc, by simp⟩
  | cons p t ih =>
    intro c cache hc hnd hnew
    rw [List.map_cons, List.nodup_cons] at hnd
    obtain ⟨cache2, hadd, _, _, hkeys⟩ := caches.add_known_keys c h p.1 p.2 cache hc
    have hp : p.1 ∉ cache.keys := hnew p.1 (by simp)
    rw [if_neg hp] at hkeys
    have hget : (⟨c.data.assign h cache2⟩ : caches α).data.get? h = some cache2 :=
      GoMap.get?_assign_self _ _ _
    obtain ⟨c', cache', hrun, hc', hk'⟩ := ih ⟨c.data.assign h cache2⟩ cache2 hget hnd.2
      (fun v hv => by
        rw [hkeys, List.mem_append, List.mem_singleton]
        rintro (hm | hm)
        · exact hnew v (by rw [List.map_cons]; exact List.mem_cons_of_mem _ hv) hm
        · exact hnd.1 (hm ▸ hv))
    refine ⟨c', cache', ?_, hc', ?_⟩
    · simp only [List.map_cons, caches.run, caches.step, hadd]
      exact hrun
    · rw [hk', hkeys]
      simp

/-- **C14.** On a known header `h`, `list` sends exactly one sequence: it holds
every value indexed under `h` once and nothing else, and is as long as the value
index has keys.  After `add` messages with pairwise distinct values under `h` on
a store fresh from `newCaches`, `list` sends exactly those values. -/
theorem list_values (toLower : String → String) (c : caches α) (h : String)
    (hh : h ∈ c.data.keys) :
    (∃ (cache : cacheString α) (keys : List String),
      c.data.get? h = some cache ∧ c.list ⟨h⟩ = some keys ∧ keys.Nodup ∧
      (∀ v, v ∈ keys ↔ (c.bucket h v).isSome) ∧ keys.length = cache.entries.length) ∧
    (∀ (H : List String) (kvs : List (String × α)), c = newCaches H →
      (kvs.map Prod.fst).Nodup →
      ∃ (c' : caches α) (keys : List String),
        c.run toLower (kvs.map (fun p => Msg.add ⟨h, p.1, p.2⟩)) = some c' ∧
        c'.list ⟨h⟩ = some keys ∧ keys.Perm (kvs.map Prod.fst)) := by
  cases hg : c.data.get? h with
  | none => exact absurd hh ((GoMap.get?_eq_none_iff _ _).1 hg)
  | some cache =>
    refine ⟨⟨cache, cache.keys, rfl, by simp [caches.list, hg], cache.nodup, ?_, ?_⟩, ?_⟩
    · intro v
      simp only [caches.bucket, hg, Option.some_bind]
      cases hv : cache.get? v with
      | none => simpa using (GoMap.get?_eq_none_iff _ _).1 hv
      | some b => simpa using GoMap.mem_keys_of_get? hv
    · simp [GoMap.keys]
    · intro H kvs hH hnd
      have hempty : cache = GoMap.empty := by
        rw [hH] at hg
        unfold newCaches at hg
        exact get?_foldl_init H _ h cache (fun cache' hc' => by
          rw [GoMap.get?_empty] at hc'; exact Option.noConfusion hc') hg
      obtain ⟨c', cache', hrun, hc', hk'⟩ :=
        caches.run_adds_distinct toLower h kvs c cache hg hnd (fun v _ => by
          rw [hempty]; simp [GoMap.keys, GoMap.empty])
      refine ⟨c', cache'.keys, hrun, by simp [caches.list, hc'], ?_⟩
      rw [hk', hempty]
      simp [GoMap.keys, GoMap.empty]

/-- Witness of C14: the values listed under `From` after two `add`s on a fresh
store. -/
theorem list_values_witness :
    ∃ (c' : caches Nat) (keys : List String),
      (newCaches ["From"] : caches Nat).run asciiToLower
        ([("alice@x.com", 1), ("bob@x.com", 2)].map
          (fun p => Msg.add ⟨"From", p.1, p.2⟩)) = some c' ∧
      c'.list ⟨"From"⟩ = some keys ∧
      keys.Perm ([("alice@x.com", 1), ("bob@x.com", 2)].map Prod.fst) :=
  (list_values asciiToLower (newCaches ["From"]) "From" (by decide)).2 ["From"]
    [("alice@x.com", 1), ("bob@x.com", 2)] rfl (by decide)

end Listing

/-! ## Processing order of `add` messages -/

section Order

variable {α : Type} [LinearOrder α]

/-- A run of `add` messages into one bucket under a known header succeeds and
appends the ids to the bucket in the order they are processed. -/
theorem caches.run_adds_same (toLower : String → String) (h k : String) (ids : List α) :
    ∀ (c : caches α) (cache : cacheString α), c.data.get? h = some cache →
      ∃ (c' : caches α) (cache' : cacheString α),
        c.run toLower (ids.map (fun id => Msg.add ⟨h, k, id⟩)) = some c' ∧
        c'.data.get? h = some cache' ∧
        (cache'.get? k).getD [] = (cache.get? k).getD [] ++ ids := by
  induction ids with
  | nil =>
    intro c cache hc
    exact ⟨c, cache, rfl, hc, by simp⟩
  | cons id t ih =>
    intro c cache hc
    obtain ⟨cache2, hadd, hk, _⟩ := caches.add_known c h k id cache hc
    have hget : (⟨c.data.assign h cache2⟩ : caches α).data.get? h = some cache2 :=
      GoMap.get?_assign_self _ _ _
    obtain ⟨c', cache', hrun, hc', hk'⟩ := ih ⟨c.data.assign h cache2⟩ cache2 hget
    refine ⟨c', cache', ?_, hc', ?_⟩
    · simp only [List.map_cons, caches.run, caches.step, hadd]
      exact hrun
    · rw [hk', hk]
      simp

/-- The page sent by `respond` for a limit between `1` and the number `n` of
matched ids, when the page lies within the match result. -/
theorem caches.respond_of_le (toLower : String → String) (c : caches α)
    (header value : String) (m : keyType) (oldest : Bool) (pageIndex pageLimit n : ℕ)
    (hn : (c.match_ toLower header value m).length = n) (h0 : 1 ≤ pageLimit)
    (hb : pageIndex + pageLimit ≤ n) :
    c.respond toLower ⟨header, value, pageIndex, pageLimit, oldest, m⟩ =
      some (c.sortInPlace toLower header value m
          (if oldest then sortAsc (c.match_ toLower header value m)
            else sortDesc (c.match_ toLower header value m)),
        some (((if oldest then sortAsc (c.match_ toLower header value m)
            else sortDesc (c.match_ toLower header value m)).drop pageIndex).take pageLimit)) := by
  have hz : ¬ ((n : Int) = 0) := by omega
  have hl0 : ¬ ((pageLimit : Int) = 0) := by omega
  have hgt : ¬ ((pageLimit : Int) > (n : Int)) := by omega
  have hge : ¬ ((pageIndex : Int) ≥ (n : Int)) := by omega
  have hneg : ¬ ((pageLimit : Int) < 0) := by omega
  cases oldest
  · have hcopy := copyLoop_of_le (sortDesc (c.match_ toLower header value m)) pageLimit
      pageIndex (by rw [sortDesc_length]; omega)
    unfold caches.respond
    simp only [hn, hz, if_false, hl0, hgt, hge, hneg, Int.toNat_ofNat, Bool.not_false, if_true,
      hcopy, Bool.false_eq_true]
  · have hcopy := copyLoop_of_le (sortAsc (c.match_ toLower header value m)) pageLimit
      pageIndex (by rw [sortAsc_length]; omega)
    unfold caches.respond
    simp only [hn, hz, if_false, hl0, hgt, hge, hneg, Int.toNat_ofNat, Bool.not_true,
      Bool.false_eq_true, hcopy, if_true]

theorem sortAsc_eq_of_perm {l₁ l₂ : List α} (hp : l₁.Perm l₂) : sortAsc l₁ = sortAsc l₂ :=
  List.eq_of_perm_of_sorted (((sortAsc_perm l₁).trans hp).trans (sortAsc_perm l₂).symm)
    (sortAsc_sorted l₁) (sortAsc_sorted l₂)

theorem sortDesc_eq_of_perm {l₁ l₂ : List α} (hp : l₁.Perm l₂) : sortDesc l₁ = sortDesc l₂ :=
  haveI : IsAntisymm α (fun a b => b ≤ a) := ⟨fun _ _ h₁ h₂ => le_antisymm h₂ h₁⟩
  List.eq_of_perm_of_sorted (((sortDesc_perm l₁).trans hp).trans (sortDesc_perm l₂).symm)
    (sortDesc_sorted l₁) (sortDesc_sorted l₂)

/-- **C15 (counterexample).** For `N = 0` no `add` is processed and the EXACT
query with `pageIndex 0` and `pageLimit 0` delivers no page at all. -/
theorem adds_none_counterexample :
    (newCaches ["From"] : caches Nat).run asciiToLower
        (([] : List Nat).map (fun id => Msg.add ⟨"From", "alice@x.com", id⟩)) = some store0 ∧
      store0.respond asciiToLower ⟨"From", "alice@x.com", 0, 0, false, keyType.keyTypeExact⟩
        = some (store0, none) := by
  decide

/-- **C15 (amended).** For `N ≥ 1` pairwise distinct ids and every order `ids'`
in which the `add` messages for one bucket under a known header of a fresh
store are processed, the run succeeds and the EXACT query with `pageIndex 0`
and `pageLimit N` delivers one page; the page is the sorted list of the ids,
the same for every order, and holds exactly these ids, each once. -/
theorem adds_any_order (toLower : String → String) (H : List String) (h k : String)
    (ids ids' : List α) (oldest : Bool) (hh : h ∈ H) (hne : ids ≠ []) (hnd : ids.Nodup)
    (hperm : ids'.Perm ids) :
    ∃ c' c'' : caches α,
      (newCaches H).run toLower (ids'.map (fun id => Msg.add ⟨h, k, id⟩)) = some c' ∧
      c'.respond toLower ⟨h, k, 0, (ids.length : ℕ), oldest, keyType.keyTypeExact⟩ =
        some (c'', some (if oldest then sortAsc ids else sortDesc ids)) ∧
      (if oldest then sortAsc ids else sortDesc ids).Perm ids ∧
      (if oldest then sortAsc ids else sortDesc ids).Nodup := by
  have hkey : h ∈ (newCaches H : caches α).data.keys := (mem_keys_newCaches H h).2 hh
  cases hg : (newCaches H : caches α).data.get? h with
  | none => exact absurd hkey ((GoMap.get?_eq_none_iff _ _).1 hg)
  | some cache =>
    obtain ⟨c', cache', hrun, hc', hk'⟩ :=
      caches.run_adds_same toLower h k ids' (newCaches H) cache hg
    have hb : (newCaches H : caches α).bucket h k = none := bucket_newCaches H h k
    have hck : cache.get? k = none := by
      simpa [caches.bucket, hg] using hb
    rw [hck] at hk'
    simp only [Option.getD_none, List.nil_append] at hk'
    have hmatch : c'.match_ toLower h k keyType.keyTypeExact = ids' := by
      rw [caches.match_eq_bucket toLower c' h k _ (by decide)]
      simpa [caches.bucket, hc'] using hk'
    have hlen : ids'.length = ids.length := hperm.length_eq
    have hpos : 1 ≤ ids.length := by
      cases ids with
      | nil => exact absurd rfl hne
      | cons a t => simp
    have hresp := caches.respond_of_le toLower c' h k keyType.keyTypeExact oldest 0
      ids.length ids.length (by rw [hmatch, hlen]) hpos (by omega)
    have hsorted : (if oldest then sortAsc (c'.match_ toLower h k keyType.keyTypeExact)
        else sortDesc (c'.match_ toLower h k keyType.keyTypeExact))
        = if oldest then sortAsc ids else sortDesc ids := by
      rw [hmatch]
      cases oldest
      · simpa using sortDesc_eq_of_perm hperm
      · simpa using sortAsc_eq_of_perm hperm
    have hslen : (if oldest then sortAsc ids else sortDesc ids).length = ids.length := by
      cases oldest
      · simpa using sortDesc_length ids
      · simpa using sortAsc_length ids
    have hp : (if oldest then sortAsc ids else sortDesc ids).Perm ids := by
      cases oldest
      · simpa using sortDesc_perm ids
      · simpa using sortAsc_perm ids
    rw [hsorted] at hresp
    simp only [List.drop_zero, Nat.cast_zero] at hresp
    rw [List.take_of_length_le (le_of_eq hslen)] at hresp
    exact ⟨c', _, hrun, hresp, hp, hp.nodup_iff.2 hnd⟩

/-- Witness of C15 (amended): the ids `1, 2, 3` processed in the order
`2, 3, 1`. -/
theorem adds_any_order_witness :
    ∃ c' c'' : caches Nat,
      (newCaches ["From"]).run asciiToLower
        ([2, 3, 1].map (fun id => Msg.add ⟨"From", "alice@x.com", id⟩)) = some c' ∧
      c'.respond asciiToLower ⟨"From", "alice@x.com", 0, ([1, 2, 3].length : ℕ), false,
          keyType.keyTypeExact⟩ =
        some (c'', some (if false then sortAsc [1, 2, 3] else sortDesc [1, 2, 3])) ∧
      (if false then sortAsc [1, 2, 3] else sortDesc [1, 2, 3]).Perm [1, 2, 3] ∧
      (if false then sortAsc [1, 2, 3] else sortDesc [1, 2, 3]).Nodup :=
  adds_any_order asciiToLower ["From"] "From" "alice@x.com" [1, 2, 3] [2, 3, 1] false
    (by decide) (by decide) (by decide) (by decide)

end Order

/-! ## Frame properties of `remove` -/

section Frame

variable {α : Type} [LinearOrder α]

theorem diff_nil (A : List α) : diff A [] = A := by
  induction A with
  | nil => rfl
  | cons a as ih => rw [diff, diffScan, ih]

/-- **C16 (counterexample).** `remove` with the empty removal set turns the
bucket `[5, 4, 3, 2, 1]` into `[1, 2, 3, 4, 5]`: the store is not the same. -/
theorem remove_nil_counterexample :
    store5.bucket "From" "alice@x.com" = some [5, 4, 3, 2, 1] ∧
      (store5.remove []).bucket "From" "alice@x.com" = some [1, 2, 3, 4, 5] ∧
      store5.remove [] ≠ store5 := by
  decide

/-- **C16 (amended).** `remove` with the empty removal set keeps the headers and
leaves every bucket with the same ids, sorted ascending; a bucket that was sorted
ascending holds the same sequence of ids as before. -/
theorem remove_nil_sorts (c : caches α) :
    (c.remove []).data.keys = c.data.keys ∧
    (∀ h v, (c.remove []).bucket h v = (c.bucket h v).map sortAsc) ∧
    (∀ h v b, c.bucket h v = some b →
      ∃ b', (c.remove []).bucket h v = some b' ∧ b'.Perm b ∧
        b'.Sorted (fun x y => x ≤ y)) ∧
    (∀ h v b, c.bucket h v = some b → b.Sorted (fun x y => x ≤ y) →
      (c.remove []).bucket h v = some b) := by
  have hb : ∀ h v, (c.remove []).bucket h v = (c.bucket h v).map sortAsc := by
    intro h v
    rw [caches.bucket_remove]
    simp only [diff_nil]
  refine ⟨caches.keys_remove c [], hb, ?_, ?_⟩
  · intro h v b hbv
    exact ⟨sortAsc b, by rw [hb, hbv]; rfl, sortAsc_perm b, sortAsc_sorted b⟩
  · intro h v b hbv hs
    rw [hb, hbv, Option.map_some']
    exact congrArg some (List.Sorted.insertionSort_eq hs)

/-- Witness of C16 (amended): the bucket of `store5` after `remove []`. -/
theorem remove_nil_sorts_witness :
    ∃ b', (store5.remove []).bucket "From" "alice@x.com" = some b' ∧
      b'.Perm [5, 4, 3, 2, 1] ∧ b'.Sorted (fun x y => x ≤ y) :=
  (remove_nil_sorts store5).2.2.1 "From" "alice@x.com" [5, 4, 3, 2, 1] (by decide)

/-- The store `storeEmptied` matches no id under the value `alice@x.com`, in any
mode. -/
theorem storeEmptied_match (toLower : String → String) (m : keyType) :
    storeEmptied.match_ toLower "From" "alice@x.com" m = [] := by
  cases m
  · rfl
  · rw [caches.match_eq_bucket toLower storeEmptied _ _ _ (by decide)]
    simp only [caches.bucket, storeEmptied, GoMap.get?, lookupList, if_true, Option.some_bind]
    split_ifs <;> rfl
  · simp only [caches.match_, storeEmptied, GoMap.get?, lookupList, if_true, newMailFiles]
    simp

/-- **C19.** `remove` deletes no key: the headers, the values listed under each
header and the existence of every bucket are the same after `remove R` as
before.  So a value can be listed although every match query on it yields
no-result: after `remove [1]` on `store1` the value `alice@x.com` is still
listed under `From`, its bucket is empty, and `respond` delivers no page for it
in any mode. -/
theorem remove_keeps_values (c : caches α) (R : List α) :
    (c.remove R).data.keys = c.data.keys ∧
    (∀ h, (c.remove R).list ⟨h⟩ = c.list ⟨h⟩) ∧
    (∀ h v, ((c.remove R).bucket h v).isSome = (c.bucket h v).isSome) ∧
    (store1.remove [1] = storeEmptied ∧
      storeEmptied.list ⟨"From"⟩ = some ["alice@x.com"] ∧
      storeEmptied.bucket "From" "alice@x.com" = some [] ∧
      ∀ (toLower : String → String) (m : keyType) (index limit : Int) (oldest : Bool),
        storeEmptied.respond toLower ⟨"From", "alice@x.com", index, limit, oldest, m⟩
          = some (storeEmptied, none)) := by
  refine ⟨caches.keys_remove c R, ?_, ?_, by decide, by decide, by decide, ?_⟩
  · intro h
    simp only [caches.list, caches.remove, GoMap.get?_mapValues]
    cases c.data.get? h with
    | none => rfl
    | some cache => simp [GoMap.keys_mapValues]
  · intro h v
    rw [caches.bucket_remove]
    cases c.bucket h v <;> rfl
  · intro toLower m index limit oldest
    exact caches.respond_empty toLower storeEmptied _ (storeEmptied_match toLower m)

end Frame

/-! ## Case folding and the frame of `respond` -/

section Folding

variable {α : Type}

/-- **C17.** Case folding happens at query time only: on a store fresh from
`newCaches`, for a known header `h` and a value `v` that `toLower` changes (one
with an upper-case letter), after `add(h, v, id)` the ADDRESS match on the very
same `v` does not contain `id`, while the EXACT match on `v` does. -/
theorem address_folds_query_only (toLower : String → String) (H : List String)
    (h v : String) (id : α) (hh : h ∈ H) (hv : toLower v ≠ v) :
    ∃ c' : caches α,
      (newCaches H).add ⟨h, v, id⟩ = some c' ∧
      id ∉ c'.match_ toLower h v keyType.keyTypeAddr ∧
      id ∈ c'.match_ toLower h v keyType.keyTypeExact := by
  have hkey : h ∈ (newCaches H : caches α).data.keys := (mem_keys_newCaches H h).2 hh
  cases hg : (newCaches H : caches α).data.get? h with
  | none => exact absurd hkey ((GoMap.get?_eq_none_iff _ _).1 hg)
  | some cache =>
    obtain ⟨cache2, hadd, hk, hne⟩ := caches.add_known (newCaches H) h v id cache hg
    have hfresh : ∀ k, cache.get? k = none := fun k => by
      simpa [caches.bucket, hg] using bucket_newCaches (α := α) H h k
    refine ⟨_, hadd, ?_, ?_⟩
    · rw [caches.match_eq_bucket toLower _ h v _ (by decide)]
      simp [caches.bucket, GoMap.get?_assign_self, hne (toLower v) hv, hfresh]
    · rw [caches.match_eq_bucket toLower _ h v _ (by decide)]
      simp [caches.bucket, GoMap.get?_assign_self, hk, hfresh]

/-- Witness of C17: the value `Alice@X.com` under the header `From`. -/
theorem address_folds_query_only_witness :
    ∃ c' : caches Nat,
      (newCaches ["From"]).add ⟨"From", "Alice@X.com", 1⟩ = some c' ∧
      1 ∉ c'.match_ asciiToLower "From" "Alice@X.com" keyType.keyTypeAddr ∧
      1 ∈ c'.match_ asciiToLower "From" "Alice@X.com" keyType.keyTypeExact :=
  address_folds_query_only asciiToLower ["From"] "From" "Alice@X.com" 1 (by decide) (by decide)

/-- The store after the in-place sort of a non-empty match result: same keys
everywhere, and every bucket a permutation of what it was. -/
theorem caches.sortInPlace_frame (toLower : String → String) (c : caches α)
    (header value : String) (m : keyType) (sorted : List α)
    (hp : sorted.Perm (c.match_ toLower header value m))
    (hne : c.match_ toLower header value m ≠ []) :
    (c.sortInPlace toLower header value m sorted).data.keys = c.data.keys ∧
    (∀ hd, ((c.sortInPlace toLower header value m sorted).data.get? hd).map GoMap.keys
      = (c.data.get? hd).map GoMap.keys) ∧
    (∀ hd v, (c.sortInPlace toLower header value m sorted).bucket hd v = c.bucket hd v ∨
      ∃ b b', c.bucket hd v = some b ∧
        (c.sortInPlace toLower header value m sorted).bucket hd v = some b' ∧ b'.Perm b) := by
  by_cases hm : m = keyType.keyTypePart
  · simp [caches.sortInPlace, hm]
  · cases hg : c.data.get? header with
    | none => simp [caches.sortInPlace, hm, hg]
    | some cache =>
      have hmatch := caches.match_eq_bucket toLower c header value m hm
      simp only [caches.bucket, hg, Option.some_bind] at hmatch
      cases hv : cache.get? (if m = keyType.keyTypeAddr then toLower value else value) with
      | none =>
        rw [hv] at hmatch
        exact absurd hmatch hne
      | some files =>
        rw [hv] at hmatch
        simp only [Option.getD_some] at hmatch
        rw [hmatch] at hp
        have hkh : header ∈ c.data.keys := GoMap.mem_keys_of_get? hg
        have hkv : (if m = keyType.keyTypeAddr then toLower value else value) ∈ cache.keys :=
          GoMap.mem_keys_of_get? hv
        have hc' : c.sortInPlace toLower header value m sorted = ⟨c.data.assign header
            (cache.assign (if m = keyType.keyTypeAddr then toLower value else value) sorted)⟩ := by
          simp only [caches.sortInPlace, hm, if_false, hg]
        rw [hc']
        refine ⟨by rw [GoMap.keys_assign, if_pos hkh], ?_, ?_⟩
        · intro hd
          by_cases hh : hd = header
          · subst hh
            rw [GoMap.get?_assign_self, hg]
            simp only [Option.map_some', GoMap.keys_assign, if_pos hkv]
          · rw [GoMap.get?_assign_ne _ hh]
        · intro hd v
          by_cases hh : hd = header
          · subst hh
            by_cases hvv : v = (if m = keyType.keyTypeAddr then toLower value else value)
            · right
              refine ⟨files, sorted, ?_, ?_, hp⟩
              · simp only [caches.bucket, hg, Option.some_bind, hvv, hv]
              · simp only [caches.bucket, GoMap.get?_assign_self, Option.some_bind, hvv]
            · left
              simp only [caches.bucket, GoMap.get?_assign_self, Option.some_bind, hg,
                GoMap.get?_assign_ne _ hvv]
          · left
            simp only [caches.bucket, GoMap.get?_assign_ne _ hh]

variable [LinearOrder α]

/-- **C18.** A match request changes no id of the store: when `respond` has
served a request, the headers and the values indexed under every header are the
same as before, and every bucket is a permutation of what it was (the matched
bucket may have been sorted in place).  Serving a list request leaves the store
as it is. -/
theorem respond_keeps_ids (toLower : String → String) (c c' : caches α) (r : cacheRequest)
    (reply : Option (List α)) (h : c.respond toLower r = some (c', reply)) :
    c'.data.keys = c.data.keys ∧
    (∀ hd, (c'.data.get? hd).map GoMap.keys = (c.data.get? hd).map GoMap.keys) ∧
    (∀ hd v, (c.bucket hd v = none ∧ c'.bucket hd v = none) ∨
      ∃ b b', c.bucket hd v = some b ∧ c'.bucket hd v = some b' ∧ b'.Perm b) ∧
    (∀ lr : cacheListRequest, c.step toLower (Msg.list lr) = some c) := by
  have hsame : ∀ o : Option (List α), (o = none ∧ o = none) ∨
      ∃ b b', o = some b ∧ o = some b' ∧ b'.Perm b := fun o => by
    cases o with
    | none => exact Or.inl ⟨rfl, rfl⟩
    | some b => exact Or.inr ⟨b, b, rfl, rfl, List.Perm.refl b⟩
  cases reply with
  | none =>
    obtain ⟨hc, _⟩ := caches.respond_none_inv toLower c c' r h
    subst hc
    exact ⟨rfl, fun _ => rfl, fun hd v => hsame _, fun _ => rfl⟩
  | some page =>
    obtain ⟨sorted, lim, hp, hc, h1, _, hle, _, _⟩ := caches.respond_page_inv toLower c c' r page h
    have hne : c.match_ toLower r.header r.value r.match_ ≠ [] := by
      intro he
      rw [he] at hle
      simp only [List.length_nil, Nat.cast_zero] at hle
      omega
    obtain ⟨hk, hv, hb⟩ :=
      caches.sortInPlace_frame toLower c r.header r.value r.match_ sorted hp hne
    subst hc
    refine ⟨hk, hv, fun hd v => ?_, fun _ => rfl⟩
    rcases hb hd v with he | ⟨b, b', h1, h2, h3⟩
    · rw [he]; exact hsame _
    · exact Or.inr ⟨b, b', h1, h2, h3⟩

/-- Witness of C18: the EXACT query that sorts the bucket of `store5` in place
when the oldest ids are asked for. -/
theorem respond_keeps_ids_witness :
    (store5.sortInPlace asciiToLower "From" "alice@x.com" keyType.keyTypeExact
        [1, 2, 3, 4, 5]).data.keys = store5.data.keys ∧
    (∀ hd, ((store5.sortInPlace asciiToLower "From" "alice@x.com" keyType.keyTypeExact
        [1, 2, 3, 4, 5]).data.get? hd).map GoMap.keys = (store5.data.get? hd).map GoMap.keys) ∧
    (∀ hd v, (store5.bucket hd v = none ∧
        (store5.sortInPlace asciiToLower "From" "alice@x.com" keyType.keyTypeExact
          [1, 2, 3, 4, 5]).bucket hd v = none) ∨
      ∃ b b', store5.bucket hd v = some b ∧
        (store5.sortInPlace asciiToLower "From" "alice@x.com" keyType.keyTypeExact
          [1, 2, 3, 4, 5]).bucket hd v = some b' ∧ b'.Perm b) ∧
    (∀ lr : cacheListRequest, store5.step asciiToLower (Msg.list lr) = some store5) :=
  respond_keeps_ids asciiToLower store5
    (store5.sortInPlace asciiToLower "From" "alice@x.com" keyType.keyTypeExact [1, 2, 3, 4, 5])
    ⟨"From", "alice@x.com", 0, 2, true, keyType.keyTypeExact⟩ (some [1, 2]) (by decide)

end Folding

end Perso
